import Mathlib

/-!
Shallow embedding of `git_branch_stack.py` (the git branch ring-stack tool).

The embedding models:
  - the `RingRecord` persisted per repository root: `{ring, position}`,
    where `position` is `None` or a Python `int` (modelled as `Option Int`,
    so that tampered on-disk values, including negative ones, are expressible);
  - Python list primitives with Python semantics: indexing (`l[i]`, which
    wraps a negative index once and raises `IndexError` outside
    `[-len, len)`), `list.insert` (which clamps the index), `del l[i]`,
    `list.index`, and `%` on ints (Python `%` on a positive modulus agrees
    with `Int.emod`);
  - the `Stack` methods `push`, `pop`, `current`, `back`, `forward`,
    `is_empty`.  Methods that can raise or call `sys.exit` return
    `Except PyErr`; `push` cannot raise and is a total function.
    The `save()` calls only write the record to disk and never change it,
    so they are omitted;
  - the `Git` methods `ref_exists` / `_ref_exists` / `status_for` over an
    explicit environment describing the underlying repository, and the
    module-level reconciliation function `_fix_ring`;
  - the pure parsing/selection logic of the interactive branch of
    `print_ring`: the regex match of `(?i)(d?)( *\d+(?: +\d+)*)` against
    the stripped input line, and the list comprehension
    `[stack.ring[int(b) - 1] for b in m.group(2).strip().split()]`,
    whose whole pipeline is wrapped in `except Exception: pass`, so any
    raise turns the command into a no-op (`none` below).
-/

/-- Ways the Python code can leave normal control flow: `sys.exit(code)`
after printing `msg`, a `TypeError` (e.g. comparing or adding `None` and
`int`), or an `IndexError` from list indexing. -/
inductive PyErr
  | exit (code : Nat) (msg : String)
  | typeError
  | indexError
deriving Repr, DecidableEq

/-- The per-repository record persisted in the stack file:
`{'ring': [...], 'position': int-or-None}`.  `position` is an `Option Int`
because the stored value is an arbitrary integer or null. -/
structure RingRecord where
  ring : List String
  position : Option Int
deriving Repr, DecidableEq

/-- Python `l[i]` for an int index: a negative index counts from the end;
an index outside `[-len l, len l)` raises `IndexError`, modelled as
`none`. -/
def pyGet {α : Type} (l : List α) (i : Int) : Option α :=
  if 0 ≤ i then l.get? i.toNat
  else if -(l.length : Int) ≤ i then l.get? ((l.length : Int) + i).toNat
  else none

/-- Python `l.insert(i, a)`: the index is clamped into `[0, len l]`
(never raises). -/
def pyInsert {α : Type} (i : Int) (a : α) (l : List α) : List α :=
  let n : Nat := if i < 0 then ((l.length : Int) + i).toNat else min i.toNat l.length
  l.take n ++ a :: l.drop n

/-- Python `del l[i]`: deletes the element at (possibly negative) index
`i`; raises `IndexError` (modelled as `none`) outside `[-len l, len l)`. -/
def pyDelete {α : Type} (l : List α) (i : Int) : Option (List α) :=
  if 0 ≤ i then
    if i < (l.length : Int) then some (l.eraseIdx i.toNat) else none
  else if -(l.length : Int) ≤ i then some (l.eraseIdx ((l.length : Int) + i).toNat)
  else none

/-- The data-model invariants of a `RingRecord` (spec section 3):
`position` is `None` exactly when `ring` is empty, otherwise a valid index
`0 <= position < len(ring)`; and `ring` holds no duplicate names. -/
def RingInv (s : RingRecord) : Prop :=
  s.ring.Nodup ∧
  match s.position with
  | none => s.ring = []
  | some i => s.ring ≠ [] ∧ 0 ≤ i ∧ i < (s.ring.length : Int)

namespace Stack

/-- `Stack.is_empty`: `self.ring is None or len(self.ring) == 0`.
The record's ring is always a list here, so only the length test remains. -/
def is_empty (s : RingRecord) : Bool :=
  s.ring.isEmpty

/-- `Stack.push` (source lines 169-176).  If `branch` is already in the
ring, the position becomes its first index (`self.ring.index(branch)`) and
the ring is untouched; otherwise `branch` is inserted at `position + 1`
(`0` when `position` is `None`) and the position becomes that index.
`push` cannot raise. -/
def push (branch : String) (s : RingRecord) : RingRecord :=
  if branch ∈ s.ring then
    { s with position := some (s.ring.indexOf branch : Int) }
  else
    let newPos : Int :=
      match s.position with
      | some i => i + 1
      | none => 0
    { ring := pyInsert newPos branch s.ring, position := some newPos }

/-- `Stack.pop` (source lines 178-192).  With `position` `None` it prints
a message and calls `sys.exit(1)`.  Otherwise it reads and deletes
`ring[position]`, then sets `position` to `(position - 1) % len(ring)` on
the post-removal ring, or `None` when the ring became empty. -/
def pop (s : RingRecord) : Except PyErr (String × RingRecord) :=
  match s.position with
  | none => .error (.exit 1 "No branches on the stack")
  | some i =>
    match pyGet s.ring i with
    | none => .error .indexError
    | some out =>
      match pyDelete s.ring i with
      | none => .error .indexError
      | some ring' =>
        if ring'.isEmpty then .ok (out, { ring := ring', position := none })
        else .ok (out, { ring := ring', position := some ((i - 1) % (ring'.length : Int)) })

/-- `Stack.current` (source lines 194-199).  Returns `None` on an empty
ring; with a nonempty ring it evaluates `len(self.ring) > self.index`
(a `TypeError` when `position` is `None`), then returns
`self.ring[self.index]` when the test holds (an `IndexError` when the
index is below `-len`, and Python end-relative indexing when it is in
`[-len, -1]`), and `None` otherwise.  It never writes to the record. -/
def current (s : RingRecord) : Except PyErr (Option String) :=
  if s.ring.isEmpty then .ok none
  else
    match s.position with
    | none => .error .typeError
    | some i =>
      if i < (s.ring.length : Int) then
        match pyGet s.ring i with
        | some v => .ok (some v)
        | none => .error .indexError
      else .ok none

/-- `Stack.back` (source lines 201-208).  On an empty ring, returns `None`
and leaves the record untouched.  Otherwise moves the position to
`(position - 1) % len(ring)` and returns the element there. -/
def back (s : RingRecord) : Except PyErr (Option String × RingRecord) :=
  if s.ring.isEmpty then .ok (none, s)
  else
    match s.position with
    | none => .error .typeError
    | some i =>
      let j : Int := (i - 1) % (s.ring.length : Int)
      match pyGet s.ring j with
      | some v => .ok (some v, { s with position := some j })
      | none => .error .indexError

/-- `Stack.forward` (source lines 210-217), symmetric to `back` with
`(position + 1) % len(ring)`. -/
def forward (s : RingRecord) : Except PyErr (Option String × RingRecord) :=
  if s.ring.isEmpty then .ok (none, s)
  else
    match s.position with
    | none => .error .typeError
    | some i =>
      let j : Int := (i + 1) % (s.ring.length : Int)
      match pyGet s.ring j with
      | some v => .ok (some v, { s with position := some j })
      | none => .error .indexError

/-- `forward` iterated `n` times, propagating any raise (used to state
the cycling property of the ring). -/
def forwardN : Nat → RingRecord → Except PyErr RingRecord
  | 0, s => .ok s
  | n + 1, s =>
    match forward s with
    | .error e => .error e
    | .ok (_, s') => forwardN n s'

end Stack

/-- The state of the underlying repository as the `Git` wrapper sees it:
which local and remote-tracking references exist, and the exit status of
the argumentless listing command `git branch --no-color` (`true` = exit
code 0, which is the case whenever the process runs inside a repository,
regardless of which branches exist). -/
structure GitEnv where
  localRefs : List String
  remoteRefs : List String
  branchCmdOk : Bool
deriving Repr, DecidableEq

/-- Python `r.startswith(c)` for a one-character prefix `c`: true when
the first character of `r` is `c`.  (`String.startsWith` itself is opaque
to kernel reduction, so the one-character case is modelled on the
character list.) -/
def strStartsWith (r : String) (c : Char) : Bool :=
  match r.data with
  | [] => false
  | d :: _ => d = c

namespace Git

/-- `Git._ref_exists` (source lines 95-97).  The method receives `branch`
but runs `cmd = ["git", "branch", "--no-color"]` — a command that does not
mention `branch` at all — and tests `returncode == 0`.  Its result is
therefore the environment's fixed exit status, independent of `branch`. -/
def ref_exists_inner (env : GitEnv) (branch : String) : Bool :=
  env.branchCmdOk

/-- `Git.ref_exists` (source lines 91-93): `_ref_exists(branch) or
_ref_exists("origin/" + branch)`. -/
def ref_exists (env : GitEnv) (branch : String) : Bool :=
  ref_exists_inner env branch || ref_exists_inner env ("origin/" ++ branch)

/-- `Git.status_for` (source lines 66-76), parameterised over the lines
produced by `git rev-list --left-right remote...local`: `behind` counts
lines starting with "<", `ahead` lines starting with ">"; a zero count
contributes nothing, the concatenation is returned, or "=" when it is
empty. -/
def status_for (revs : List String) : String :=
  let behind := (revs.filter (fun r => strStartsWith r '<')).length
  let ahead := (revs.filter (fun r => strStartsWith r '>')).length
  let behindStr := if behind = 0 then "" else "<" ++ toString behind
  let aheadStr := if ahead = 0 then "" else ">" ++ toString ahead
  let out := behindStr ++ aheadStr
  if out = "" then "=" else out

end Git

/-- Modelled from the spec: the Reference Source contract
`reference_exists(name) -> bool` — "true if `name` or its remote-tracking
counterpart exists".  Stated over the same `GitEnv` for comparison with
the source's `Git.ref_exists`. -/
def reference_exists_spec (env : GitEnv) (branch : String) : Bool :=
  decide (branch ∈ env.localRefs) || decide (("origin/" ++ branch) ∈ env.remoteRefs)

/-- `_fix_ring` (source lines 250-260): records the pre-filter
`stack.current()` as `expected`, replaces the ring with the entries for
which `Git.ref_exists` holds (the `position` field is not touched by the
ring setter), and pushes `branch` when the filtered ring is empty or
`branch != expected` (Python `str != None` is true).  `stack.save()` only
persists and is omitted. -/
def fix_ring (env : GitEnv) (branch : String) (s : RingRecord) :
    Except PyErr RingRecord :=
  match Stack.current s with
  | .error e => .error e
  | .ok expected =>
    let s₁ : RingRecord := { s with ring := s.ring.filter (fun r => Git.ref_exists env r) }
    .ok (if Stack.is_empty s₁ = true ∨ some branch ≠ expected then Stack.push branch s₁ else s₁)

/-- The filtering stage of `_fix_ring` (source line 255): the ring is
replaced by the entries for which `Git.ref_exists` holds; the `position`
field is untouched, because the `ring` setter only assigns the list. -/
def filterStage (env : GitEnv) (s : RingRecord) : RingRecord :=
  ⟨s.ring.filter (fun x => Git.ref_exists env x), s.position⟩

/-- Numeric value of a digit character, as Python `int` reads it. -/
def digitVal (c : Char) : Nat :=
  c.toNat - 48

/-- Value of a run of digit characters, as Python `int` of the string. -/
def digitsVal (ds : List Char) : Nat :=
  ds.foldl (fun n c => 10 * n + digitVal c) 0

/-- Accumulator-based tokenizer: reads characters that are spaces or
digits, collecting maximal digit runs as numbers.  `acc` is the value of
the digit run currently being read, if any. -/
def runsAux : Option Nat → List Char → List Nat
  | none, [] => []
  | some n, [] => [n]
  | acc, c :: cs =>
    if c.isDigit then runsAux (some (10 * (acc.getD 0) + digitVal c)) cs
    else
      match acc with
      | none => runsAux none cs
      | some n => n :: runsAux none cs

/-- The numbers matched by the regex fragment ` *\d+(?: +\d+)*` at the
start of `cs` (group 2 of the `print_ring` pattern, source line 354),
already converted by `int` as in `m.group(2).strip().split()` followed by
`int(b)` (source line 356).  The regex, being unanchored at the right, is
equivalent to: take the longest prefix made of spaces and digits, read its
digit runs, and fail only when there is no run at all. -/
def parseNums (cs : List Char) : Option (List Nat) :=
  let pre := cs.takeWhile (fun c => c = ' ' || c.isDigit)
  match runsAux none pre with
  | [] => none
  | ts => some ts

/-- The full regex `(?i)(d?)( *\d+(?: +\d+)*)` applied with `re.match` to
the stripped input line (source lines 354-356): group 1 greedily takes a
leading `d`/`D` if present; if group 2 then fails, the regex backtracks to
an empty group 1 and retries from the start (which also fails, a `d` being
neither a space nor a digit).  The boolean is `action == 'd'` after
`.lower()`.  A failed match makes `m.group(1)` raise `AttributeError`,
modelled as `none`. -/
def parseResp (resp : String) : Option (Bool × List Nat) :=
  match resp.toList with
  | [] => none
  | c :: rest =>
    if c = 'd' ∨ c = 'D' then
      match parseNums rest with
      | some toks => some (true, toks)
      | none => (parseNums (c :: rest)).map (fun toks => (false, toks))
    else (parseNums (c :: rest)).map (fun toks => (false, toks))

/-- All-or-nothing mapping of a Python list comprehension in which each
element access may raise: one raise aborts the whole comprehension. -/
def listMapOpt {α β : Type} (f : α → Option β) : List α → Option (List β)
  | [] => some []
  | a :: as =>
    match f a with
    | none => none
    | some b => (listMapOpt f as).map (fun bs => b :: bs)

/-- The outcome of the interactive selection step of `print_ring` (source
lines 350-383): `none` when the `except Exception: pass` swallows a raise
(no regex match, so `m.group(1)` raises, or `stack.ring[int(b) - 1]`
raises `IndexError`) — the command is then a no-op, the record untouched —
and otherwise the delete-mode flag together with the referenced ring
entries, all computed before any mutation happens. -/
def selectionOutcome (ring : List String) (resp : String) :
    Option (Bool × List String) :=
  match parseResp resp with
  | none => none
  | some (isD, toks) =>
    match listMapOpt (fun (t : Nat) => pyGet ring ((t : Int) - 1)) toks with
    | none => none
    | some picks => some (isD, picks)

/-- Modelled from the spec: the accepted grammar of claim C9 — "an
optional case-insensitive `d` marker followed by one or more
whitespace-separated positive integers" — as a whole-line condition: after
the optional marker, the line holds only spaces and digits, contains at
least one digit run, and every run has a positive value.  Used only for
comparison with the source's actual parsing. -/
def grammarAccepts (resp : String) : Bool :=
  let cs := resp.toList
  let body :=
    match cs with
    | c :: rest => if c = 'd' ∨ c = 'D' then rest else cs
    | [] => cs
  let toks := runsAux none body
  body.all (fun c => c = ' ' || c.isDigit) &&
    (!toks.isEmpty && toks.all (fun t => 1 ≤ t))

/-! ### Helper lemmas -/

theorem emod_nonneg_of_pos (i : Int) (n : Nat) (hn : 0 < n) : 0 ≤ i % (n : Int) :=
  Int.emod_nonneg i (by exact_mod_cast Nat.pos_iff_ne_zero.mp hn)

theorem emod_lt_len (i : Int) (n : Nat) (hn : 0 < n) : i % (n : Int) < (n : Int) :=
  Int.emod_lt_of_pos i (by exact_mod_cast hn)

theorem emod_add_cancel (i k : Int) (n : Int) : (i % n + k) % n = (i + k) % n := by
  rw [Int.add_emod (i % n) k n, Int.emod_emod_of_dvd i dvd_rfl, ← Int.add_emod]

theorem emod_sub_one_add_one (i : Int) (n : Nat) (h0 : 0 ≤ i) (h1 : i < (n : Int)) :
    ((i - 1) % (n : Int) + 1) % (n : Int) = i := by
  rw [emod_add_cancel, sub_add_cancel, Int.emod_eq_of_lt h0 h1]

theorem emod_add_one_sub_one (i : Int) (n : Nat) (h0 : 0 ≤ i) (h1 : i < (n : Int)) :
    ((i + 1) % (n : Int) - 1) % (n : Int) = i := by
  have : ((i + 1) % (n : Int) - 1) % (n : Int) = ((i + 1) % (n : Int) + (-1)) % (n : Int) := by
    ring_nf
  rw [this, emod_add_cancel, Int.add_neg_cancel_right, Int.emod_eq_of_lt h0 h1]

theorem pyGet_nonneg {α : Type} (l : List α) (i : Int) (h : 0 ≤ i) :
    pyGet l i = l.get? i.toNat := by
  simp [pyGet, h]

theorem pyGet_valid {α : Type} (l : List α) (i : Int) (h0 : 0 ≤ i)
    (h1 : i < (l.length : Int)) :
    ∃ v, pyGet l i = some v ∧ l.get? i.toNat = some v := by
  have hlt : i.toNat < l.length := by omega
  rcases List.get?_eq_get hlt with h
  exact ⟨l.get ⟨i.toNat, hlt⟩, by rw [pyGet_nonneg l i h0, h], h⟩

theorem pyGet_eq_none_iff {α : Type} (l : List α) (i : Int) :
    pyGet l i = none ↔ (i < -(l.length : Int) ∨ (l.length : Int) ≤ i) := by
  unfold pyGet
  by_cases h0 : 0 ≤ i
  · simp only [h0, if_true]
    rw [List.get?_eq_none]
    omega
  · simp only [h0, if_false]
    by_cases h1 : -(l.length : Int) ≤ i
    · simp only [h1, if_true]
      rw [List.get?_eq_none]
      omega
    · simp only [h1, if_false]
      constructor
      · intro _; omega
      · intro _; trivial

theorem pyDelete_valid {α : Type} (l : List α) (i : Int) (h0 : 0 ≤ i)
    (h1 : i < (l.length : Int)) :
    pyDelete l i = some (l.eraseIdx i.toNat) := by
  simp [pyDelete, h0, h1]

theorem ringInv_some (s : RingRecord) (i : Int) (h : RingInv s) (hp : s.position = some i) :
    s.ring ≠ [] ∧ 0 ≤ i ∧ i < (s.ring.length : Int) := by
  obtain ⟨-, h2⟩ := h
  rw [hp] at h2
  exact h2

theorem ringInv_nodup (s : RingRecord) (h : RingInv s) : s.ring.Nodup :=
  h.1

theorem ringInv_empty (s : RingRecord) (h : RingInv s) (he : s.ring = []) :
    s.position = none := by
  obtain ⟨-, h2⟩ := h
  match hp : s.position with
  | none => rfl
  | some i => rw [hp] at h2; exact absurd he h2.1

theorem ringInv_nonempty (s : RingRecord) (h : RingInv s) (he : s.ring ≠ []) :
    ∃ i, s.position = some i ∧ 0 ≤ i ∧ i < (s.ring.length : Int) := by
  obtain ⟨-, h2⟩ := h
  match hp : s.position with
  | none => rw [hp] at h2; exact absurd h2 he
  | some i => rw [hp] at h2; exact ⟨i, rfl, h2.2⟩

theorem isEmpty_false_of_ne {α : Type} (l : List α) (h : l ≠ []) : l.isEmpty = false := by
  cases l with
  | nil => exact absurd rfl h
  | cons a as => rfl

theorem forward_ok_raw (r : List String) (i : Int) (hne : r ≠ []) :
    ∃ v, pyGet r ((i + 1) % (r.length : Int)) = some v ∧
      Stack.forward ⟨r, some i⟩ = .ok (some v, ⟨r, some ((i + 1) % (r.length : Int))⟩) := by
  have hlen : 0 < r.length := List.length_pos.mpr hne
  obtain ⟨v, hv, -⟩ :=
    pyGet_valid r ((i + 1) % (r.length : Int)) (emod_nonneg_of_pos _ _ hlen)
      (emod_lt_len _ _ hlen)
  refine ⟨v, hv, ?_⟩
  unfold Stack.forward
  simp only [isEmpty_false_of_ne r hne, Bool.false_eq_true, if_false, hv]

theorem back_ok_raw (r : List String) (i : Int) (hne : r ≠ []) :
    ∃ v, pyGet r ((i - 1) % (r.length : Int)) = some v ∧
      Stack.back ⟨r, some i⟩ = .ok (some v, ⟨r, some ((i - 1) % (r.length : Int))⟩) := by
  have hlen : 0 < r.length := List.length_pos.mpr hne
  obtain ⟨v, hv, -⟩ :=
    pyGet_valid r ((i - 1) % (r.length : Int)) (emod_nonneg_of_pos _ _ hlen)
      (emod_lt_len _ _ hlen)
  refine ⟨v, hv, ?_⟩
  unfold Stack.back
  simp only [isEmpty_false_of_ne r hne, Bool.false_eq_true, if_false, hv]

theorem current_ok_raw (r : List String) (i : Int) (h0 : 0 ≤ i)
    (h1 : i < (r.length : Int)) :
    ∃ v, pyGet r i = some v ∧ Stack.current ⟨r, some i⟩ = .ok (some v) := by
  have hne : r ≠ [] := by
    intro he
    rw [he] at h1
    simp at h1
    omega
  obtain ⟨v, hv, -⟩ := pyGet_valid r i h0 h1
  refine ⟨v, hv, ?_⟩
  unfold Stack.current
  simp only [isEmpty_false_of_ne r hne, Bool.false_eq_true, if_false, h1, if_pos, hv]

theorem pop_ok_raw (s : RingRecord) (i : Int) (hp : s.position = some i)
    (h0 : 0 ≤ i) (h1 : i < (s.ring.length : Int)) :
    ∃ out, pyGet s.ring i = some out ∧
      Stack.pop s = .ok (out,
        ⟨s.ring.eraseIdx i.toNat,
          if s.ring.eraseIdx i.toNat = [] then none
          else some ((i - 1) % ((s.ring.eraseIdx i.toNat).length : Int))⟩) := by
  obtain ⟨out, hv, -⟩ := pyGet_valid s.ring i h0 h1
  refine ⟨out, hv, ?_⟩
  unfold Stack.pop
  rw [hp]
  simp only [hv, pyDelete_valid s.ring i h0 h1]
  by_cases he : s.ring.eraseIdx i.toNat = []
  · simp only [he, List.isEmpty_nil, if_true, if_pos]
  · simp only [isEmpty_false_of_ne _ he, Bool.false_eq_true, if_false, he]

theorem insert_length {α : Type} (l : List α) (n : Nat) (a : α) (h : n ≤ l.length) :
    (l.take n ++ a :: l.drop n).length = l.length + 1 := by
  simp only [List.length_append, List.length_take, List.length_cons, List.length_drop]
  omega

theorem insert_get_self {α : Type} (l : List α) (n : Nat) (a : α) (h : n ≤ l.length) :
    (l.take n ++ a :: l.drop n).get? n = some a := by
  have hl : (l.take n).length = n := by
    simp only [List.length_take]
    omega
  rw [List.get?_append_right (le_of_eq hl), hl, Nat.sub_self]
  rfl

theorem insert_nodup {α : Type} (l : List α) (n : Nat) (a : α) (hd : l.Nodup)
    (hm : a ∉ l) : (l.take n ++ a :: l.drop n).Nodup := by
  rw [List.nodup_middle, List.nodup_cons, List.take_append_drop]
  exact ⟨hm, hd⟩

theorem push_mem_eq (s : RingRecord) (branch : String) (hmem : branch ∈ s.ring) :
    Stack.push branch s = { s with position := some (s.ring.indexOf branch : Int) } := by
  unfold Stack.push
  rw [if_pos hmem]

theorem push_not_mem_eq (s : RingRecord) (branch : String) (i : Int)
    (hp : s.position = some i) (h0 : 0 ≤ i) (h1 : i < (s.ring.length : Int))
    (hmem : branch ∉ s.ring) :
    Stack.push branch s =
      { ring := s.ring.take (i + 1).toNat ++ branch :: s.ring.drop (i + 1).toNat,
        position := some (i + 1) } := by
  unfold Stack.push
  rw [if_neg hmem, hp]
  have hlt : ¬ (i + 1 < 0) := by omega
  have hmin : min (i + 1).toNat s.ring.length = (i + 1).toNat := by omega
  simp only [pyInsert, hlt, if_false, hmin]

theorem push_none_eq (s : RingRecord) (branch : String) (hp : s.position = none)
    (hmem : branch ∉ s.ring) :
    Stack.push branch s = { ring := branch :: s.ring, position := some 0 } := by
  unfold Stack.push
  rw [if_neg hmem, hp]
  simp [pyInsert]

theorem push_inv (s : RingRecord) (branch : String) (h : RingInv s) :
    RingInv (Stack.push branch s) := by
  by_cases hmem : branch ∈ s.ring
  · rw [push_mem_eq s branch hmem]
    have hne : s.ring ≠ [] := by
      intro he
      rw [he] at hmem
      exact absurd hmem (List.not_mem_nil branch)
    have hidx : s.ring.indexOf branch < s.ring.length :=
      List.indexOf_lt_length.mpr hmem
    exact ⟨h.1, hne, by omega, by exact_mod_cast hidx⟩
  · match hp : s.position with
    | none =>
      have he : s.ring = [] := by
        obtain ⟨-, h2⟩ := h
        rw [hp] at h2
        exact h2
      rw [push_none_eq s branch hp hmem, RingInv]
      refine ⟨?_, by simp, by simp, by simp⟩
      rw [he]
      exact List.nodup_cons.mpr ⟨List.not_mem_nil branch, List.nodup_nil⟩
    | some i =>
      obtain ⟨hne, h0, h1⟩ := ringInv_some s i h hp
      rw [push_not_mem_eq s branch i hp h0 h1 hmem, RingInv]
      have hle : (i + 1).toNat ≤ s.ring.length := by omega
      refine ⟨insert_nodup s.ring (i + 1).toNat branch h.1 hmem, ?_, by omega, ?_⟩
      · intro habs
        have := congrArg List.length habs
        rw [insert_length s.ring (i + 1).toNat branch hle] at this
        simp at this
      · rw [insert_length s.ring (i + 1).toNat branch hle]
        push_cast
        omega

theorem pop_inv (s : RingRecord) (i : Int) (h : RingInv s) (hp : s.position = some i)
    (out : String) (s' : RingRecord) (hok : Stack.pop s = .ok (out, s')) :
    RingInv s' := by
  obtain ⟨hne, h0, h1⟩ := ringInv_some s i h hp
  obtain ⟨o, -, hpop⟩ := pop_ok_raw s i hp h0 h1
  rw [hpop] at hok
  have hs' : s' = ⟨s.ring.eraseIdx i.toNat,
      if s.ring.eraseIdx i.toNat = [] then none
      else some ((i - 1) % ((s.ring.eraseIdx i.toNat).length : Int))⟩ := by
    cases hok
    rfl
  subst hs'
  have hnd : (s.ring.eraseIdx i.toNat).Nodup :=
    h.1.sublist (List.eraseIdx_sublist s.ring i.toNat)
  by_cases he : s.ring.eraseIdx i.toNat = []
  · exact ⟨hnd, by simp only [he, if_pos]⟩
  · have hlen : 0 < (s.ring.eraseIdx i.toNat).length := List.length_pos.mpr he
    refine ⟨hnd, ?_⟩
    simp only [he, if_neg, if_false]
    exact ⟨he, emod_nonneg_of_pos _ _ hlen, emod_lt_len _ _ hlen⟩

theorem forward_inv (s : RingRecord) (h : RingInv s) (v : Option String)
    (s' : RingRecord) (hok : Stack.forward s = .ok (v, s')) : RingInv s' := by
  by_cases hne : s.ring = []
  · unfold Stack.forward at hok
    rw [hne] at hok
    simp only [List.isEmpty_nil, if_pos] at hok
    cases hok
    exact h
  · obtain ⟨i, hp, h0, h1⟩ := ringInv_nonempty s h hne
    obtain ⟨w, -, hfwd⟩ := forward_ok_raw s.ring i hne
    have hs : s = ⟨s.ring, some i⟩ := by
      cases s
      simp only at hp
      rw [hp]
    rw [hs] at hok
    rw [hfwd] at hok
    cases hok
    have hlen : 0 < s.ring.length := List.length_pos.mpr hne
    exact ⟨h.1, hne, emod_nonneg_of_pos _ _ hlen, emod_lt_len _ _ hlen⟩

theorem back_inv (s : RingRecord) (h : RingInv s) (v : Option String)
    (s' : RingRecord) (hok : Stack.back s = .ok (v, s')) : RingInv s' := by
  by_cases hne : s.ring = []
  · unfold Stack.back at hok
    rw [hne] at hok
    simp only [List.isEmpty_nil, if_pos] at hok
    cases hok
    exact h
  · obtain ⟨i, hp, h0, h1⟩ := ringInv_nonempty s h hne
    obtain ⟨w, -, hbk⟩ := back_ok_raw s.ring i hne
    have hs : s = ⟨s.ring, some i⟩ := by
      cases s
      simp only at hp
      rw [hp]
    rw [hs] at hok
    rw [hbk] at hok
    cases hok
    have hlen : 0 < s.ring.length := List.length_pos.mpr hne
    exact ⟨h.1, hne, emod_nonneg_of_pos _ _ hlen, emod_lt_len _ _ hlen⟩

theorem neg_one_emod_len (n : Nat) (h : 0 < n) : (-1 : Int) % (n : Int) = (n : Int) - 1 := by
  have h1 : (-1 : Int) % (n : Int) = (-1 + (n : Int) * 1) % (n : Int) := by
    rw [Int.add_mul_emod_self_left]
  rw [h1, mul_one]
  have h2 : (-1 + (n : Int)) = (n : Int) - 1 := by ring
  rw [h2]
  exact Int.emod_eq_of_lt (by omega) (by omega)

theorem add_len_emod (i : Int) (n : Nat) (h0 : 0 ≤ i) (h1 : i < (n : Int)) :
    (i + (n : Int)) % (n : Int) = i := by
  have he : i + (n : Int) = i + (n : Int) * 1 := by ring
  rw [he, Int.add_mul_emod_self_left, Int.emod_eq_of_lt h0 h1]

theorem ref_exists_eq_branchCmdOk (env : GitEnv) (b : String) :
    Git.ref_exists env b = env.branchCmdOk :=
  Bool.or_self env.branchCmdOk

theorem filter_ref_exists (env : GitEnv) (l : List String) :
    l.filter (fun r => Git.ref_exists env r) =
      if env.branchCmdOk = true then l else [] := by
  cases hb : env.branchCmdOk
  · simp only [Git.ref_exists, Git.ref_exists_inner, hb, Bool.or_self, Bool.false_eq_true,
      if_false]
    exact List.filter_false l
  · simp only [Git.ref_exists, Git.ref_exists_inner, hb, Bool.or_self, if_true]
    exact List.filter_true l

theorem listMapOpt_eq_none_iff {α β : Type} (f : α → Option β) (l : List α) :
    listMapOpt f l = none ↔ ∃ a ∈ l, f a = none := by
  induction l with
  | nil => simp [listMapOpt]
  | cons a as ih =>
    cases hfa : f a with
    | none => simp [listMapOpt, hfa]
    | some b =>
      simp only [listMapOpt, hfa, Option.map_eq_none', ih, List.mem_cons]
      constructor
      · rintro ⟨x, hx, hfx⟩
        exact ⟨x, Or.inr hx, hfx⟩
      · rintro ⟨x, hx | hx, hfx⟩
        · rw [hx] at hfx
          rw [hfa] at hfx
          cases hfx
        · exact ⟨x, hx, hfx⟩

theorem data_head_ne {c d : Char} (rest : List Char) (hne : c ≠ d) :
    (c :: rest) ≠ [d] := by
  intro h
  injection h with h1 h2
  exact hne h1

/-! ### Claim theorems -/

/-- C1: for every `RingRecord` satisfying the invariants, `push(name)`
behaves as specified — if `name` is already in the ring, the ring is
unchanged (same elements, same order, same length) and `position` becomes
the existing index of `name`; if `name` is absent, it is inserted at index
`position + 1` (index 0 when `position` is `None`/the ring is empty),
`position` becomes that insertion index, `current()` immediately
afterwards equals `name`, and the element count grows by exactly one. -/
theorem push_spec (s : RingRecord) (branch : String) (h : RingInv s) :
    (branch ∈ s.ring →
      (Stack.push branch s).ring = s.ring ∧
      (Stack.push branch s).position = some (s.ring.indexOf branch : Int) ∧
      s.ring.get? (s.ring.indexOf branch) = some branch) ∧
    (branch ∉ s.ring →
      ∃ n : Nat,
        (s.position = none → n = 0) ∧
        (∀ i : Int, s.position = some i → (n : Int) = i + 1) ∧
        (Stack.push branch s).ring = s.ring.take n ++ branch :: s.ring.drop n ∧
        (Stack.push branch s).position = some (n : Int) ∧
        Stack.current (Stack.push branch s) = .ok (some branch) ∧
        (Stack.push branch s).ring.length = s.ring.length + 1) := by
  constructor
  · intro hmem
    rw [push_mem_eq s branch hmem]
    exact ⟨rfl, rfl, List.indexOf_get? hmem⟩
  · intro hmem
    match hp : s.position with
    | none =>
      have he : s.ring = [] := by
        obtain ⟨-, h2⟩ := h
        rw [hp] at h2
        exact h2
      have hpush := push_none_eq s branch hp hmem
      refine ⟨0, fun _ => rfl, ?_, ?_, ?_, ?_, ?_⟩
      · intro i hi
        exact absurd hi (by simp)
      · rw [hpush]
        simp
      · rw [hpush]
        simp
      · rw [hpush, he]
        obtain ⟨v, hv, hcur⟩ := current_ok_raw [branch] 0 (by omega) (by simp)
        have h0 : pyGet [branch] 0 = some branch := rfl
        rw [h0] at hv
        injection hv with hvb
        rw [← hvb] at hcur
        exact hcur
      · rw [hpush, he]
        simp
    | some i =>
      obtain ⟨hne, h0, h1⟩ := ringInv_some s i h hp
      have hcast : ((i + 1).toNat : Int) = i + 1 := by omega
      refine ⟨(i + 1).toNat, ?_, ?_, ?_, ?_, ?_, ?_⟩
      · intro habs
        exact absurd habs (by simp)
      · intro i' hi'
        injection hi' with hii
        rw [← hii]
        exact hcast
      · rw [push_not_mem_eq s branch i hp h0 h1 hmem]
      · rw [push_not_mem_eq s branch i hp h0 h1 hmem, hcast]
      · rw [push_not_mem_eq s branch i hp h0 h1 hmem]
        have hle : (i + 1).toNat ≤ s.ring.length := by omega
        have hlen := insert_length s.ring (i + 1).toNat branch hle
        obtain ⟨v, hv, hcur⟩ := current_ok_raw
          (s.ring.take (i + 1).toNat ++ branch :: s.ring.drop (i + 1).toNat)
          (i + 1) (by omega) (by rw [hlen]; push_cast; omega)
        have hvb : v = branch := by
          rw [pyGet_nonneg _ _ (by omega : (0 : Int) ≤ i + 1)] at hv
          rw [insert_get_self s.ring (i + 1).toNat branch hle] at hv
          injection hv with hvb
          exact hvb.symm
        rw [hvb] at hcur
        exact hcur
      · rw [push_not_mem_eq s branch i hp h0 h1 hmem]
        exact insert_length s.ring (i + 1).toNat branch (by omega)

/-- Witness for C1: a concrete invariant-satisfying record on which
`push` of a new name makes it current. -/
theorem push_spec_witness :
    RingInv { ring := ["aaa"], position := some 0 } ∧
    Stack.current (Stack.push "bbb" { ring := ["aaa"], position := some 0 }) =
      .ok (some "bbb") := by
  have hinv : RingInv { ring := ["aaa"], position := some 0 } :=
    ⟨by decide, by decide, by decide, by decide⟩
  refine ⟨hinv, ?_⟩
  obtain ⟨n, -, -, -, -, hcur, -⟩ :=
    (push_spec { ring := ["aaa"], position := some 0 } "bbb" hinv).2 (by decide)
  exact hcur

/-- C4: each of `push`, `pop`, `forward`, `back`, applied to a
`RingRecord` satisfying the data-model invariants, produces a record that
still satisfies them: `position` is `None` iff the ring is empty,
otherwise `0 <= position < len(ring)`, and the ring has no duplicates. -/
theorem operations_preserve_invariants (s : RingRecord) (h : RingInv s) :
    (∀ branch, RingInv (Stack.push branch s)) ∧
    (∀ out s', Stack.pop s = .ok (out, s') → RingInv s') ∧
    (∀ v s', Stack.forward s = .ok (v, s') → RingInv s') ∧
    (∀ v s', Stack.back s = .ok (v, s') → RingInv s') := by
  refine ⟨fun branch => push_inv s branch h, ?_, ?_, ?_⟩
  · intro out s' hok
    match hp : s.position with
    | none =>
      unfold Stack.pop at hok
      rw [hp] at hok
      cases hok
    | some i => exact pop_inv s i h hp out s' hok
  · intro v s' hok
    exact forward_inv s h v s' hok
  · intro v s' hok
    exact back_inv s h v s' hok

/-- Witness for C4: the invariants hold before and after a concrete
`push`. -/
theorem operations_preserve_invariants_witness :
    RingInv { ring := ["aaa"], position := some 0 } ∧
    RingInv (Stack.push "bbb" { ring := ["aaa"], position := some 0 }) := by
  have hinv : RingInv { ring := ["aaa"], position := some 0 } :=
    ⟨by decide, by decide, by decide, by decide⟩
  exact ⟨hinv,
    (operations_preserve_invariants { ring := ["aaa"], position := some 0 } hinv).1 "bbb"⟩

/-- C2: for every invariant-satisfying `RingRecord` with `position` not
`None`, `pop()` removes the element at `position` and returns it;
afterwards `position` is `None` iff the ring became empty, and otherwise
equals `(pre-pop position - 1) mod (post-removal length)`, so that
`current()` after the pop equals the element one `back()` step from the
pre-pop cursor evaluated on the ring with the popped element removed,
wrapping to the new last element when the removed element was first. -/
theorem pop_spec (s : RingRecord) (i : Int) (h : RingInv s)
    (hp : s.position = some i) :
    ∃ out s',
      Stack.pop s = .ok (out, s') ∧
      pyGet s.ring i = some out ∧
      s'.ring = s.ring.eraseIdx i.toNat ∧
      (s'.position = none ↔ s'.ring = []) ∧
      (s'.ring ≠ [] → s'.position = some ((i - 1) % (s'.ring.length : Int))) ∧
      (s'.ring ≠ [] → ∃ v s'',
        Stack.back { ring := s'.ring, position := some i } = .ok (some v, s'') ∧
        Stack.current s' = .ok (some v)) ∧
      (i = 0 → s'.ring ≠ [] → s'.position = some ((s'.ring.length : Int) - 1)) := by
  obtain ⟨hne, h0, h1⟩ := ringInv_some s i h hp
  obtain ⟨out, hget, hpop⟩ := pop_ok_raw s i hp h0 h1
  set r' := s.ring.eraseIdx i.toNat with hr'
  refine ⟨out, _, hpop, hget, rfl, ?_, ?_, ?_, ?_⟩
  · by_cases he : r' = [] <;> simp [he]
  · intro hne'
    simp [hne']
  · intro hne'
    have hne'' : r' ≠ [] := by simpa using hne'
    have hlen : 0 < r'.length := List.length_pos.mpr hne''
    obtain ⟨v, hv, hback⟩ := back_ok_raw r' i hne''
    obtain ⟨w, hw, hcur⟩ := current_ok_raw r' ((i - 1) % (r'.length : Int))
      (emod_nonneg_of_pos _ _ hlen) (emod_lt_len _ _ hlen)
    have hvw : v = w := by
      rw [hv] at hw
      injection hw
    refine ⟨v, _, hback, ?_⟩
    rw [if_neg hne'']
    rw [← hvw] at hcur
    exact hcur
  · intro hi hne'
    have hlen : 0 < r'.length := List.length_pos.mpr hne'
    simp only [hne', if_neg, if_false]
    rw [hi]
    have : ((0 : Int) - 1) = -1 := by ring
    rw [this, neg_one_emod_len r'.length hlen]

/-- Witness for C2: popping the cursor element of a concrete three-element
ring succeeds. -/
theorem pop_spec_witness :
    RingInv { ring := ["aaa", "bbb", "ccc"], position := some 1 } ∧
    ({ ring := ["aaa", "bbb", "ccc"], position := some 1 } : RingRecord).position = some 1 ∧
    ∃ out s', Stack.pop { ring := ["aaa", "bbb", "ccc"], position := some 1 } =
      .ok (out, s') := by
  have hinv : RingInv { ring := ["aaa", "bbb", "ccc"], position := some 1 } :=
    ⟨by decide, by decide, by decide, by decide⟩
  refine ⟨hinv, rfl, ?_⟩
  obtain ⟨out, s', hok, -⟩ :=
    pop_spec { ring := ["aaa", "bbb", "ccc"], position := some 1 } 1 hinv rfl
  exact ⟨out, s', hok⟩

theorem forwardN_formula (k : Nat) (r : List String) (i : Int) (hne : r ≠ [])
    (h0 : 0 ≤ i) (h1 : i < (r.length : Int)) :
    Stack.forwardN k ⟨r, some i⟩ = .ok ⟨r, some ((i + k) % (r.length : Int))⟩ := by
  induction k generalizing i with
  | zero =>
    unfold Stack.forwardN
    rw [show ((0 : Nat) : Int) = 0 from rfl, add_zero, Int.emod_eq_of_lt h0 h1]
  | succ k ih =>
    obtain ⟨v, -, hfwd⟩ := forward_ok_raw r i hne
    have hlen : 0 < r.length := List.length_pos.mpr hne
    have hstep : Stack.forwardN (k + 1) ⟨r, some i⟩ =
        Stack.forwardN k ⟨r, some ((i + 1) % (r.length : Int))⟩ := by
      rw [Stack.forwardN, hfwd]
    rw [hstep, ih ((i + 1) % (r.length : Int)) (emod_nonneg_of_pos _ _ hlen)
      (emod_lt_len _ _ hlen)]
    congr 2
    rw [emod_add_cancel]
    congr 1
    push_cast
    ring_nf

/-- C5: on a static ring of size at least one, `back()` then `forward()`
restores the prior position, `forward()` then `back()` restores the prior
position, and repeating `forward()` exactly `len(ring)` times returns to
the original current element. -/
theorem forward_back_inverse_spec (s : RingRecord) (h : RingInv s)
    (hne : s.ring ≠ []) :
    (∃ v s₁ w s₂, Stack.back s = .ok (v, s₁) ∧ Stack.forward s₁ = .ok (w, s₂) ∧
      s₂.position = s.position ∧ s₂.ring = s.ring) ∧
    (∃ v s₁ w s₂, Stack.forward s = .ok (v, s₁) ∧ Stack.back s₁ = .ok (w, s₂) ∧
      s₂.position = s.position ∧ s₂.ring = s.ring) ∧
    (∃ s', Stack.forwardN s.ring.length s = .ok s' ∧
      Stack.current s' = Stack.current s ∧ s' = s) := by
  obtain ⟨i, hp, h0, h1⟩ := ringInv_nonempty s h hne
  have hs : s = ⟨s.ring, some i⟩ := by
    cases s
    simp only at hp
    rw [hp]
  have hlen : 0 < s.ring.length := List.length_pos.mpr hne
  refine ⟨?_, ?_, ?_⟩
  · obtain ⟨v, -, hback⟩ := back_ok_raw s.ring i hne
    obtain ⟨w, -, hfwd⟩ := forward_ok_raw s.ring ((i - 1) % (s.ring.length : Int)) hne
    refine ⟨v, _, w, _, by rw [hs]; exact hback, hfwd, ?_, rfl⟩
    simp only [hp]
    rw [emod_sub_one_add_one i s.ring.length h0 h1]
  · obtain ⟨v, -, hfwd⟩ := forward_ok_raw s.ring i hne
    obtain ⟨w, -, hback⟩ := back_ok_raw s.ring ((i + 1) % (s.ring.length : Int)) hne
    refine ⟨v, _, w, _, by rw [hs]; exact hfwd, hback, ?_, rfl⟩
    simp only [hp]
    rw [emod_add_one_sub_one i s.ring.length h0 h1]
  · refine ⟨s, ?_, rfl, rfl⟩
    have hf := forwardN_formula s.ring.length s.ring i hne h0 h1
    rw [add_len_emod i s.ring.length h0 h1] at hf
    rw [hs]
    rw [hs] at hf
    exact hf

/-- Witness for C5: cycling forward through a concrete three-element ring
three times returns to the start. -/
theorem forward_back_inverse_witness :
    RingInv { ring := ["aaa", "bbb", "ccc"], position := some 0 } ∧
    (∃ s', Stack.forwardN 3 { ring := ["aaa", "bbb", "ccc"], position := some 0 } =
        .ok s' ∧
      Stack.current s' =
        Stack.current { ring := ["aaa", "bbb", "ccc"], position := some 0 } ∧
      s' = { ring := ["aaa", "bbb", "ccc"], position := some 0 }) := by
  have hinv : RingInv { ring := ["aaa", "bbb", "ccc"], position := some 0 } :=
    ⟨by decide, by decide, by decide, by decide⟩
  exact ⟨hinv,
    (forward_back_inverse_spec { ring := ["aaa", "bbb", "ccc"], position := some 0 }
      hinv (by decide)).2.2⟩

/-- C6: `pop()` on an empty ring (`position` `None`) is the only Ring Stack
operation that terminates the process abnormally — it exits with a
non-zero status and a user message — while `forward()` and `back()` on an
empty ring return `None` and leave the record unchanged; on a nonempty
invariant-satisfying record every operation (pop included) completes
normally.  `push` is a total function in the model because the source
`push` cannot raise at all. -/
theorem empty_ring_behaviour (s : RingRecord) (h : RingInv s) :
    (s.ring = [] →
      (∃ c m, Stack.pop s = .error (.exit c m) ∧ c ≠ 0 ∧ m ≠ "") ∧
      Stack.forward s = .ok (none, s) ∧
      Stack.back s = .ok (none, s) ∧
      Stack.current s = .ok none) ∧
    (s.ring ≠ [] →
      (∃ out s', Stack.pop s = .ok (out, s')) ∧
      (∃ v s', Stack.forward s = .ok (v, s')) ∧
      (∃ v s', Stack.back s = .ok (v, s')) ∧
      (∃ w, Stack.current s = .ok w)) := by
  constructor
  · intro he
    have hp : s.position = none := ringInv_empty s h he
    refine ⟨⟨1, "No branches on the stack", ?_, by omega, by decide⟩, ?_, ?_, ?_⟩
    · unfold Stack.pop
      rw [hp]
    · unfold Stack.forward
      rw [he]
      rfl
    · unfold Stack.back
      rw [he]
      rfl
    · unfold Stack.current
      rw [he]
      rfl
  · intro hne
    obtain ⟨i, hp, h0, h1⟩ := ringInv_nonempty s h hne
    have hs : s = ⟨s.ring, some i⟩ := by
      cases s
      simp only at hp
      rw [hp]
    obtain ⟨out, -, hpop⟩ := pop_ok_raw s i hp h0 h1
    obtain ⟨v, -, hfwd⟩ := forward_ok_raw s.ring i hne
    obtain ⟨w, -, hback⟩ := back_ok_raw s.ring i hne
    obtain ⟨u, -, hcur⟩ := current_ok_raw s.ring i h0 h1
    exact ⟨⟨out, _, hpop⟩, ⟨some v, _, by rw [hs]; exact hfwd⟩,
      ⟨some w, _, by rw [hs]; exact hback⟩, ⟨some u, by rw [hs]; exact hcur⟩⟩

/-- Witness for C6: on the concrete empty record, `pop` exits with status
1 and `forward` is a no-op returning `None`. -/
theorem empty_ring_behaviour_witness :
    RingInv { ring := [], position := none } ∧
    (∃ c m, Stack.pop { ring := [], position := none } = .error (.exit c m) ∧
      c ≠ 0 ∧ m ≠ "") ∧
    Stack.forward { ring := [], position := none } =
      .ok (none, { ring := [], position := none }) := by
  have hinv : RingInv { ring := [], position := none } := ⟨List.nodup_nil, rfl⟩
  have h := (empty_ring_behaviour { ring := [], position := none } hinv).1 rfl
  exact ⟨hinv, h.1, h.2.1⟩

/-- Counterexample to C7 as stated: a tampered stored position of `-2` on
the singleton ring `["aaa"]` makes `current()` raise `IndexError`
(`len(self.ring) > -2` passes the guard and `self.ring[-2]` is out of
Python's index range), so `current()` is not raise-free for every
tampered `position`. -/
theorem current_raises_counterexample :
    Stack.current { ring := ["aaa"], position := some (-2) } =
      .error .indexError := by
  rfl

/-- C7 (amended): `current()` returns the element at `position` when the
invariants hold, returns `None` on an empty ring, and treats an integer
position `>= len(ring)` as `None` without clamping or repairing the
record (the model is a pure function of the record, so no mutation
occurs).  However, under external tampering it is not raise-free: an
integer position below `-len(ring)` on a nonempty ring raises
`IndexError` (a null position on a nonempty ring likewise raises a
`TypeError`), and a position in `[-len(ring), -1]` returns the element
counted from the end rather than `None`. -/
theorem current_spec (s : RingRecord) :
    (∀ i : Int, RingInv s → s.position = some i →
      ∃ v, pyGet s.ring i = some v ∧ Stack.current s = .ok (some v)) ∧
    (s.ring = [] → Stack.current s = .ok none) ∧
    (∀ i : Int, s.position = some i → (s.ring.length : Int) ≤ i →
      Stack.current s = .ok none) ∧
    (s.ring ≠ [] → s.position = none → Stack.current s = .error .typeError) ∧
    (∀ i : Int, s.position = some i → i < -(s.ring.length : Int) → s.ring ≠ [] →
      Stack.current s = .error .indexError) ∧
    (∀ i : Int, s.position = some i → -(s.ring.length : Int) ≤ i → i < 0 →
      ∃ v, pyGet s.ring i = some v ∧ Stack.current s = .ok (some v)) := by
  refine ⟨?_, ?_, ?_, ?_, ?_, ?_⟩
  · intro i hinv hp
    obtain ⟨hne, h0, h1⟩ := ringInv_some s i hinv hp
    have hs : s = ⟨s.ring, some i⟩ := by
      cases s
      simp only at hp
      rw [hp]
    obtain ⟨v, hv, hcur⟩ := current_ok_raw s.ring i h0 h1
    exact ⟨v, hv, by rw [hs]; exact hcur⟩
  · intro he
    unfold Stack.current
    rw [he]
    rfl
  · intro i hp hge
    unfold Stack.current
    by_cases he : s.ring.isEmpty
    · rw [if_pos he]
    · rw [if_neg he, hp]
      have hng : ¬ i < (s.ring.length : Int) := by omega
      simp only [hng, if_false]
  · intro hne hp
    unfold Stack.current
    rw [if_neg (by rw [isEmpty_false_of_ne s.ring hne]; simp), hp]
  · intro i hp hlt hne
    have hguard : i < (s.ring.length : Int) := by
      have := List.length_pos.mpr hne
      omega
    have hnone : pyGet s.ring i = none := by
      rw [pyGet_eq_none_iff]
      omega
    unfold Stack.current
    rw [if_neg (by rw [isEmpty_false_of_ne s.ring hne]; simp), hp]
    simp only [hguard, if_true, hnone]
  · intro i hp hge hlt
    have hlen : 0 < s.ring.length := by omega
    have hne : s.ring ≠ [] := by
      intro he
      rw [he] at hlen
      simp at hlen
    have hidx : ((s.ring.length : Int) + i).toNat < s.ring.length := by omega
    have hpy : pyGet s.ring i = s.ring.get? ((s.ring.length : Int) + i).toNat := by
      unfold pyGet
      rw [if_neg (by omega), if_pos (by omega)]
    have hw : pyGet s.ring i =
        some (s.ring.get ⟨((s.ring.length : Int) + i).toNat, hidx⟩) := by
      rw [hpy]
      exact List.get?_eq_get hidx
    refine ⟨_, hw, ?_⟩
    unfold Stack.current
    rw [if_neg (by rw [isEmpty_false_of_ne s.ring hne]; simp), hp]
    have hguard : i < (s.ring.length : Int) := by omega
    simp only [hguard, if_true, hw]

/-- Witness for C7 (amended): a concrete out-of-range non-negative
position is reported as `None` without raising. -/
theorem current_spec_witness :
    ({ ring := ["aaa"], position := some 5 } : RingRecord).position = some 5 ∧
    (((["aaa"] : List String).length : Int) ≤ 5) ∧
    Stack.current { ring := ["aaa"], position := some 5 } = .ok none := by
  refine ⟨rfl, by decide, ?_⟩
  exact (current_spec { ring := ["aaa"], position := some 5 }).2.2.1 5 rfl (by decide)



theorem fix_ring_unfold (env : GitEnv) (branch : String) (s : RingRecord)
    (v : Option String) (hcur : Stack.current s = .ok v) :
    fix_ring env branch s =
      .ok (if Stack.is_empty (filterStage env s) = true ∨ some branch ≠ v
        then Stack.push branch (filterStage env s) else filterStage env s) := by
  unfold fix_ring
  rw [hcur]
  rfl

/-- C3: reconciliation (`_fix_ring` with the live current reference) on
any invariant-satisfying `RingRecord` drops exactly the ring entries for
which `Git.ref_exists` is false (keeping the others in order), the cursor
still reports the same logical element whenever that element survived the
filtering, and the live reference is pushed exactly when the filtered
ring is empty or the live reference differs from the reported current
element; in particular a singleton ring whose entry fails
`Git.ref_exists` ends up repopulated as `[branch]`.  (Because the
source's `_ref_exists` ignores its argument — claim C8 — the filtering
keeps either every entry or none within one run.) -/
theorem fix_ring_spec (env : GitEnv) (branch : String) (s : RingRecord)
    (h : RingInv s) :
    ∃ (v : Option String) (r : RingRecord),
      Stack.current s = .ok v ∧
      (filterStage env s).ring = s.ring.filter (fun x => Git.ref_exists env x) ∧
      (filterStage env s).position = s.position ∧
      (∀ x, x ∈ s.ring → Git.ref_exists env x = false →
        x ∉ (filterStage env s).ring) ∧
      (∀ i x, s.position = some i → pyGet s.ring i = some x →
        Git.ref_exists env x = true →
        Stack.current (filterStage env s) = .ok (some x)) ∧
      (∀ w, Stack.current (filterStage env s) = .ok w →
        r = if (filterStage env s).ring = [] ∨ some branch ≠ w
          then Stack.push branch (filterStage env s) else filterStage env s) ∧
      fix_ring env branch s = .ok r ∧
      (∀ a, s.ring = [a] → Git.ref_exists env a = false → r.ring = [branch]) := by
  have hfil : (filterStage env s).ring =
      if env.branchCmdOk = true then s.ring else [] := by
    unfold filterStage
    exact filter_ref_exists env s.ring
  have hpos : (filterStage env s).position = s.position := rfl
  have hv : ∃ v, Stack.current s = .ok v := by
    by_cases he : s.ring = []
    · refine ⟨none, ?_⟩
      unfold Stack.current
      rw [he]
      rfl
    · obtain ⟨i, hp, h0, h1⟩ := ringInv_nonempty s h he
      obtain ⟨u, -, hcur⟩ := current_ok_raw s.ring i h0 h1
      have hs : s = ⟨s.ring, some i⟩ := by
        cases s
        simp only at hp
        rw [hp]
      exact ⟨some u, by rw [hs]; exact hcur⟩
  obtain ⟨v, hcur⟩ := hv
  refine ⟨v,
    if Stack.is_empty (filterStage env s) = true ∨ some branch ≠ v
      then Stack.push branch (filterStage env s) else filterStage env s,
    hcur, rfl, rfl, ?_, ?_, ?_, fix_ring_unfold env branch s v hcur, ?_⟩
  · intro x hx hfalse hmem
    unfold filterStage at hmem
    simp only [List.mem_filter] at hmem
    rw [hmem.2] at hfalse
    cases hfalse
  · intro i x hp hpy htrue
    have hb : env.branchCmdOk = true := by
      rw [← ref_exists_eq_branchCmdOk env x]
      exact htrue
    have hmid : filterStage env s = s := by
      have : (filterStage env s).ring = s.ring := by
        rw [hfil, if_pos hb]
      cases s
      unfold filterStage at this ⊢
      simp only at this
      rw [this]
    rw [hmid]
    obtain ⟨hne, h0, h1⟩ := ringInv_some s i h hp
    obtain ⟨u, hu, hcur2⟩ := current_ok_raw s.ring i h0 h1
    have hux : u = x := by
      rw [hpy] at hu
      injection hu with h2
      exact h2.symm
    have hs : s = ⟨s.ring, some i⟩ := by
      cases s
      simp only at hp
      rw [hp]
    rw [hs, ← hux]
    exact hcur2
  · intro w hw
    by_cases hb : env.branchCmdOk = true
    · have hmid : filterStage env s = s := by
        have : (filterStage env s).ring = s.ring := by
          rw [hfil, if_pos hb]
        cases s
        unfold filterStage at this ⊢
        simp only at this
        rw [this]
      rw [hmid] at hw ⊢
      have hwv : w = v := by
        rw [hcur] at hw
        injection hw with h2
        exact h2.symm
      rw [hwv]
      have hii : Stack.is_empty s = true ↔ s.ring = [] := by
        unfold Stack.is_empty
        exact List.isEmpty_iff
      by_cases hc : s.ring = [] ∨ some branch ≠ v
      · rw [if_pos (hc.elim (fun h1 => Or.inl (hii.mpr h1)) (fun h2 => Or.inr h2)),
          if_pos hc]
      · rw [if_neg (fun hc1 => hc (hc1.elim (fun h1 => Or.inl (hii.mp h1))
          (fun h2 => Or.inr h2))), if_neg hc]
    · have hmide : (filterStage env s).ring = [] := by
        rw [hfil, if_neg hb]
      have hie : Stack.is_empty (filterStage env s) = true := by
        unfold Stack.is_empty
        rw [hmide]
        rfl
      rw [if_pos (Or.inl hie), if_pos (Or.inl hmide)]
  · intro a ha hfalse
    have hb : ¬ env.branchCmdOk = true := by
      intro hbt
      rw [ref_exists_eq_branchCmdOk env a, hbt] at hfalse
      cases hfalse
    have hmide : (filterStage env s).ring = [] := by
      rw [hfil, if_neg hb]
    obtain ⟨i, hp, h0, h1⟩ := ringInv_nonempty s h (by rw [ha]; simp)
    have hi0 : i = 0 := by
      rw [ha] at h1
      simp at h1
      omega
    have hie : Stack.is_empty (filterStage env s) = true := by
      unfold Stack.is_empty
      rw [hmide]
      rfl
    rw [if_pos (Or.inl hie)]
    have hmid2 : filterStage env s = ⟨[], some 0⟩ := by
      cases s
      unfold filterStage at hmide ⊢
      simp only at hmide hp
      rw [hmide, hp, hi0]
    rw [hmid2]
    have hpush : Stack.push branch ⟨[], some 0⟩ = ⟨[branch], some 1⟩ := by
      unfold Stack.push
      rw [if_neg (List.not_mem_nil branch)]
      rfl
    rw [hpush]

/-- Witness for C3: reconciliation on a concrete record inside a live
repository produces a repaired record. -/
theorem fix_ring_spec_witness :
    RingInv { ring := ["aaa"], position := some 0 } ∧
    ∃ r, fix_ring { localRefs := ["aaa"], remoteRefs := [], branchCmdOk := true }
      "bbb" { ring := ["aaa"], position := some 0 } = .ok r := by
  have hinv : RingInv { ring := ["aaa"], position := some 0 } :=
    ⟨by decide, by decide, by decide, by decide⟩
  refine ⟨hinv, ?_⟩
  obtain ⟨v, r, -, -, -, -, -, -, hfix, -⟩ :=
    fix_ring_spec { localRefs := ["aaa"], remoteRefs := [], branchCmdOk := true }
      "bbb" { ring := ["aaa"], position := some 0 } hinv
  exact ⟨r, hfix⟩

/-- C8 refuted (code bug): `Git.ref_exists` does not depend on the queried
name, because `_ref_exists` runs the argumentless command
`git branch --no-color` and only inspects its exit status.  In an
environment where the listing command succeeds but neither `ghost` nor
`origin/ghost` exists, `ref_exists("ghost")` is true while the spec's
Reference Source contract requires false. -/
theorem ref_exists_ignores_queried_name :
    (∀ (env : GitEnv) (n₁ n₂ : String),
      Git.ref_exists env n₁ = Git.ref_exists env n₂) ∧
    Git.ref_exists { localRefs := [], remoteRefs := [], branchCmdOk := true }
      "ghost" = true ∧
    reference_exists_spec { localRefs := [], remoteRefs := [], branchCmdOk := true }
      "ghost" = false := by
  exact ⟨fun env n₁ n₂ => rfl, rfl, rfl⟩

/-- Counterexample to C9 as stated: the input line `0` does not match the
claimed grammar (0 is not a positive 1-based index), yet the command does
not end as a no-op — the source regex accepts `0`, `int("0") - 1 = -1`,
and Python's negative indexing selects the LAST ring entry, so the
selection proceeds with `["bbb"]`. -/
theorem selection_zero_counterexample :
    grammarAccepts "0" = false ∧
    selectionOutcome ["aaa", "bbb"] "0" = some (false, ["bbb"]) := by
  exact ⟨rfl, rfl⟩

/-- C9 (amended): an input line whose prefix fails the source pattern
`(?i)(d?)( *\d+(?: +\d+)*)` is caught and discarded as a no-op, and a
line with a matching prefix is a no-op exactly when one of its tokens
`t` maps to `t - 1` outside Python's index range
`[-len(ring), len(ring) - 1]` — in particular an index greater than
`len(ring)` is discarded, but a token `0` (Python index `-1`) selects the
last entry instead of being discarded, and trailing characters after a
matching prefix are ignored rather than rejected. -/
theorem selection_noop_characterisation (ring : List String) (resp : String) :
    (parseResp resp = none → selectionOutcome ring resp = none) ∧
    (∀ isD toks, parseResp resp = some (isD, toks) →
      (selectionOutcome ring resp = none ↔
        ∃ t ∈ toks, ((t : Int) - 1 < -(ring.length : Int) ∨
          (ring.length : Int) ≤ (t : Int) - 1))) := by
  constructor
  · intro hnone
    unfold selectionOutcome
    rw [hnone]
  · intro isD toks hsome
    have hred : selectionOutcome ring resp =
        match listMapOpt (fun (t : Nat) => pyGet ring ((t : Int) - 1)) toks with
        | none => none
        | some picks => some (isD, picks) := by
      unfold selectionOutcome
      rw [hsome]
    rw [hred]
    cases hmap : listMapOpt (fun (t : Nat) => pyGet ring ((t : Int) - 1)) toks with
    | none =>
      refine iff_of_true rfl ?_
      rw [listMapOpt_eq_none_iff] at hmap
      obtain ⟨t, ht, hpy⟩ := hmap
      rw [pyGet_eq_none_iff] at hpy
      exact ⟨t, ht, hpy⟩
    | some picks =>
      refine iff_of_false (fun habs => Option.noConfusion habs) ?_
      rintro ⟨t, ht, hrange⟩
      have hmn : listMapOpt (fun (t : Nat) => pyGet ring ((t : Int) - 1)) toks = none := by
        rw [listMapOpt_eq_none_iff]
        refine ⟨t, ht, ?_⟩
        rw [pyGet_eq_none_iff]
        exact hrange
      rw [hmn] at hmap
      cases hmap

/-- Witness for C9 (amended): the malformed line `x` is discarded as a
no-op. -/
theorem selection_noop_witness :
    parseResp "x" = none ∧ selectionOutcome ["aaa"] "x" = none := by
  exact ⟨rfl, (selection_noop_characterisation ["aaa"] "x").1 rfl⟩

theorem ne_empty_ne_eq_of_data (s : String) (c : Char) (rest : List Char)
    (hdata : s.data = c :: rest) (hc : c ≠ '=') : s ≠ "" ∧ s ≠ "=" := by
  constructor
  · intro h
    rw [h] at hdata
    exact List.noConfusion hdata
  · intro h
    rw [h] at hdata
    injection hdata with h1 h2
    exact hc h1.symm

/-- C10: the status token of `Git.status_for` is `=` exactly when the
behind count and the ahead count are both zero, and otherwise it is the
concatenation of `<N` (when the behind count N is positive) and `>M`
(when the ahead count M is positive), in that order. -/
theorem status_for_spec (revs : List String) :
    (Git.status_for revs = "=" ↔
      (revs.filter (fun r => strStartsWith r '<')).length = 0 ∧
      (revs.filter (fun r => strStartsWith r '>')).length = 0) ∧
    ((revs.filter (fun r => strStartsWith r '<')).length ≠ 0 ∨
        (revs.filter (fun r => strStartsWith r '>')).length ≠ 0 →
      Git.status_for revs =
        (if (revs.filter (fun r => strStartsWith r '<')).length = 0 then ""
          else "<" ++ toString (revs.filter (fun r => strStartsWith r '<')).length) ++
        (if (revs.filter (fun r => strStartsWith r '>')).length = 0 then ""
          else ">" ++ toString (revs.filter (fun r => strStartsWith r '>')).length)) := by
  unfold Git.status_for
  dsimp only
  by_cases hb : (revs.filter (fun r => strStartsWith r '<')).length = 0 <;>
    by_cases ha : (revs.filter (fun r => strStartsWith r '>')).length = 0
  · rw [if_pos hb, if_pos ha, if_pos (show ("" ++ "" : String) = "" from rfl)]
    refine ⟨⟨fun _ => ⟨hb, ha⟩, fun _ => rfl⟩, ?_⟩
    intro hcontra
    rcases hcontra with hc | hc
    · exact absurd hb hc
    · exact absurd ha hc
  · rw [if_pos hb, if_neg ha]
    have hdata : (("" ++ (">" ++ toString (revs.filter
        (fun r => strStartsWith r '>')).length)) : String).data =
        '>' :: (toString (revs.filter (fun r => strStartsWith r '>')).length).data := by
      rw [String.data_append, String.data_append]
      rfl
    obtain ⟨hne, hneq⟩ := ne_empty_ne_eq_of_data _ '>' _ hdata (by decide)
    rw [if_neg hne]
    exact ⟨⟨fun h => absurd h hneq, fun hz => absurd hz.2 ha⟩, fun _ => rfl⟩
  · rw [if_neg hb, if_pos ha]
    have hdata : ((("<" ++ toString (revs.filter
        (fun r => strStartsWith r '<')).length) ++ "") : String).data =
        '<' :: ((toString (revs.filter (fun r => strStartsWith r '<')).length).data
          ++ []) := by
      rw [String.data_append, String.data_append]
      rfl
    obtain ⟨hne, hneq⟩ := ne_empty_ne_eq_of_data _ '<' _ hdata (by decide)
    rw [if_neg hne]
    exact ⟨⟨fun h => absurd h hneq, fun hz => absurd hz.1 hb⟩, fun _ => rfl⟩
  · rw [if_neg hb, if_neg ha]
    have hdata : ((("<" ++ toString (revs.filter
        (fun r => strStartsWith r '<')).length) ++ (">" ++ toString (revs.filter
        (fun r => strStartsWith r '>')).length)) : String).data =
        '<' :: ((toString (revs.filter (fun r => strStartsWith r '<')).length).data
          ++ ('>' :: (toString (revs.filter
            (fun r => strStartsWith r '>')).length).data)) := by
      rw [String.data_append, String.data_append, String.data_append]
      rfl
    obtain ⟨hne, hneq⟩ := ne_empty_ne_eq_of_data _ '<' _ hdata (by decide)
    rw [if_neg hne]
    exact ⟨⟨fun h => absurd h hneq, fun hz => absurd hz.1 hb⟩, fun _ => rfl⟩

/-- Witness for C10: one commit behind and none ahead renders as `<1`. -/
theorem status_for_spec_witness :
    ((["<a"] : List String).filter (fun r => strStartsWith r '<')).length ≠ 0 ∧
    Git.status_for ["<a"] = "<1" := by
  refine ⟨by decide, ?_⟩
  have h := (status_for_spec ["<a"]).2 (Or.inl (by decide))
  rw [h]
  rfl
